import Mathlib

/-!
Verification of the brush gaussian-splat rendering pipeline.

The definitions below are shallow embeddings of the host-side pipeline code
in src/src/splat_render/render.rs and src/crates/brush-kernel/src/lib.rs.
Machine integers (u32, usize) are modelled as Nat; fallible operations
(underflowing subtraction, unwrap of an empty readback) are modelled with
Option. GPU kernels whose WGSL or helper sources are not part of the
repository snapshot are modelled from the specification text, and each such
definition says so in its doc comment.
-/

/-- Rust u32 div_ceil: quotient rounded up. Implemented as in the Rust
standard library, so no intermediate overflow occurs. Division by zero
never happens at the call sites modelled here (workgroup sizes and the
tile width are positive). -/
def rustDivCeil (a b : Nat) : Nat :=
  a / b + (if a % b = 0 then 0 else 1)

/-- Embedding of calc_cube_count from src/crates/brush-kernel/src/lib.rs:
per dispatch dimension, the number of workgroups is the size of that
dimension (absent trailing dimensions default to 1) divided by the
workgroup size, rounded up. -/
def calc_cube_count (sizes : List Nat) (wg0 wg1 wg2 : Nat) : Nat × Nat × Nat :=
  (rustDivCeil (sizes.getD 0 1) wg0,
   rustDivCeil (sizes.getD 1 1) wg1,
   rustDivCeil (sizes.getD 2 1) wg2)

theorem rustDivCeil_le_mul (a b : Nat) (hb : 0 < b) : a ≤ rustDivCeil a b * b := by
  unfold rustDivCeil
  by_cases h : a % b = 0
  · rw [if_pos h, Nat.add_zero, Nat.div_mul_cancel (Nat.dvd_of_mod_eq_zero h)]
  · rw [if_neg h]
    have hqr := Nat.div_add_mod a b
    have hr : a % b < b := Nat.mod_lt _ hb
    have e1 : (a / b + 1) * b = b * (a / b) + b := by ring
    omega

theorem rustDivCeil_min (a b m : Nat) (hb : 0 < b) (h : a ≤ m * b) :
    rustDivCeil a b ≤ m := by
  unfold rustDivCeil
  by_cases hz : a % b = 0
  · rw [if_pos hz, Nat.add_zero]
    calc a / b ≤ m * b / b := Nat.div_le_div_right h
    _ = m := Nat.mul_div_cancel m hb
  · rw [if_neg hz]
    by_contra hc
    push_neg at hc
    have hm : m ≤ a / b := by omega
    have h1 : m * b ≤ a / b * b := Nat.mul_le_mul_right b hm
    have h2 : a / b * b ≤ a := Nat.div_mul_le_self a b
    have h3 : a = a / b * b := Nat.le_antisymm (by omega) h2
    have h4 : a % b = 0 := by rw [h3]; exact Nat.mul_mod_left _ _
    exact hz h4

theorem rustDivCeil_pred_lt (a b : Nat) (hb : 0 < b) (ha : 0 < a) :
    (rustDivCeil a b - 1) * b < a := by
  unfold rustDivCeil
  by_cases hz : a % b = 0
  · rw [if_pos hz, Nat.add_zero]
    have hq : 0 < a / b := by
      have hd := Nat.div_add_mod a b
      rcases Nat.eq_zero_or_pos (a / b) with h0 | h0
      · rw [h0, Nat.mul_zero, Nat.zero_add] at hd
        omega
      · exact h0
    have h1 : (a / b - 1) * b < a / b * b :=
      (Nat.mul_lt_mul_right hb).mpr (by omega)
    have h2 : a / b * b = a := Nat.div_mul_cancel (Nat.dvd_of_mod_eq_zero hz)
    omega
  · rw [if_neg hz]
    rw [Nat.add_sub_cancel]
    have hqr := Nat.div_add_mod a b
    have e1 : a / b * b = b * (a / b) := Nat.mul_comm _ _
    omega

/-- C10: for positive workgroup sizes, calc_cube_count returns in each
dimension the least workgroup count whose product with the workgroup size
covers the corresponding dispatch size (absent dimensions counting as 1);
in particular count times workgroup size reaches the size, and one fewer
workgroup would not cover a positive size. -/
theorem calc_cube_count_covers (sizes : List Nat) (wg0 wg1 wg2 : Nat)
    (h0 : 0 < wg0) (h1 : 0 < wg1) (h2 : 0 < wg2) :
    (sizes.getD 0 1 ≤ (calc_cube_count sizes wg0 wg1 wg2).1 * wg0 ∧
      (∀ m, sizes.getD 0 1 ≤ m * wg0 → (calc_cube_count sizes wg0 wg1 wg2).1 ≤ m) ∧
      (0 < sizes.getD 0 1 → ((calc_cube_count sizes wg0 wg1 wg2).1 - 1) * wg0 < sizes.getD 0 1)) ∧
    (sizes.getD 1 1 ≤ (calc_cube_count sizes wg0 wg1 wg2).2.1 * wg1 ∧
      (∀ m, sizes.getD 1 1 ≤ m * wg1 → (calc_cube_count sizes wg0 wg1 wg2).2.1 ≤ m) ∧
      (0 < sizes.getD 1 1 → ((calc_cube_count sizes wg0 wg1 wg2).2.1 - 1) * wg1 < sizes.getD 1 1)) ∧
    (sizes.getD 2 1 ≤ (calc_cube_count sizes wg0 wg1 wg2).2.2 * wg2 ∧
      (∀ m, sizes.getD 2 1 ≤ m * wg2 → (calc_cube_count sizes wg0 wg1 wg2).2.2 ≤ m) ∧
      (0 < sizes.getD 2 1 → ((calc_cube_count sizes wg0 wg1 wg2).2.2 - 1) * wg2 < sizes.getD 2 1)) := by
  refine ⟨⟨?_, ?_, ?_⟩, ⟨?_, ?_, ?_⟩, ⟨?_, ?_, ?_⟩⟩
  · exact rustDivCeil_le_mul _ _ h0
  · exact fun m hm => rustDivCeil_min _ _ m h0 hm
  · exact fun hp => rustDivCeil_pred_lt _ _ h0 hp
  · exact rustDivCeil_le_mul _ _ h1
  · exact fun m hm => rustDivCeil_min _ _ m h1 hm
  · exact fun hp => rustDivCeil_pred_lt _ _ h1 hp
  · exact rustDivCeil_le_mul _ _ h2
  · exact fun m hm => rustDivCeil_min _ _ m h2 hm
  · exact fun hp => rustDivCeil_pred_lt _ _ h2 hp

/-- Witness for calc_cube_count_covers at a concrete dispatch. -/
theorem calc_cube_count_covers_witness :
    (([70, 3] : List Nat).getD 0 1 ≤ (calc_cube_count [70, 3] 16 2 1).1 * 16 ∧
      (∀ m, ([70, 3] : List Nat).getD 0 1 ≤ m * 16 → (calc_cube_count [70, 3] 16 2 1).1 ≤ m) ∧
      (0 < ([70, 3] : List Nat).getD 0 1 →
        ((calc_cube_count [70, 3] 16 2 1).1 - 1) * 16 < ([70, 3] : List Nat).getD 0 1)) ∧
    (([70, 3] : List Nat).getD 1 1 ≤ (calc_cube_count [70, 3] 16 2 1).2.1 * 2 ∧
      (∀ m, ([70, 3] : List Nat).getD 1 1 ≤ m * 2 → (calc_cube_count [70, 3] 16 2 1).2.1 ≤ m) ∧
      (0 < ([70, 3] : List Nat).getD 1 1 →
        ((calc_cube_count [70, 3] 16 2 1).2.1 - 1) * 2 < ([70, 3] : List Nat).getD 1 1)) ∧
    (([70, 3] : List Nat).getD 2 1 ≤ (calc_cube_count [70, 3] 16 2 1).2.2 * 1 ∧
      (∀ m, ([70, 3] : List Nat).getD 2 1 ≤ m * 1 → (calc_cube_count [70, 3] 16 2 1).2.2 ≤ m) ∧
      (0 < ([70, 3] : List Nat).getD 2 1 →
        ((calc_cube_count [70, 3] 16 2 1).2.2 - 1) * 1 < ([70, 3] : List Nat).getD 2 1)) :=
  calc_cube_count_covers [70, 3] 16 2 1 (by decide) (by decide) (by decide)

/-- Embedding of the tile-grid computation in render_gaussians
(src/src/splat_render/render.rs lines 119 to 122): the code builds
tile_bounds as uvec2 with camera.height.div_ceil(tile_width) in BOTH
components. The width parameter is kept to mirror the camera record even
though the source expression never reads it. -/
def tile_bounds (width height tile_width : Nat) : Nat × Nat :=
  let _ := width
  (rustDivCeil height tile_width, rustDivCeil height tile_width)

/-- Embedding of the tile_bins allocation (render.rs lines 184 to 188):
one start and end pair per cell of the tile_bounds grid. -/
def numTileBins (width height tile_width : Nat) : Nat :=
  (tile_bounds width height tile_width).1 * (tile_bounds width height tile_width).2

/-- C1 failing input: a 64 x 32 camera with 16 pixel tiles. The code
allocates 2 * 2 = 4 tile bins, while a grid of ceil(64/16) by ceil(32/16)
tiles needs 4 * 2 = 8 bins: both components of tile_bounds are computed
from the image height, so the grid does not match the claimed
ceil(width/tile) by ceil(height/tile) grid on non-square images. -/
theorem tile_bins_wrong_on_nonsquare_image :
    numTileBins 64 32 16 = 4 ∧
    rustDivCeil 64 16 * rustDivCeil 32 16 = 8 ∧
    numTileBins 64 32 16 ≠ rustDivCeil 64 16 * rustDivCeil 32 16 := by
  refine ⟨by decide, by decide, by decide⟩

/-- Rust usize subtraction: underflow is a panic, modelled as none. -/
def usizeSub (a b : Nat) : Option Nat :=
  if b ≤ a then some (a - b) else none

/-- Embedding of the num_intersects readback in render_gaussians
(render.rs lines 157 to 163): slice the scan output to the index range
from num_points - 1 to num_points, read it back and take the last value,
unwrapping. The usize subtraction underflows when num_points is zero, and
unwrap of an empty readback also fails; both are modelled as none. -/
def numIntersectsReadback (numPoints : Nat) (cumTilesHit : List Nat) : Option Nat :=
  (usizeSub numPoints 1).bind fun lo =>
    ((cumTilesHit.drop lo).take (numPoints - lo)).getLast?

/-- C2: with zero splats the forward pass does not return a background
image: it already fails at the readback of the scan total, because
num_points - 1 underflows for num_points = 0. There is no zero-splat
short-circuit anywhere in render_gaussians. -/
theorem render_zero_splats_readback_fails (cumTilesHit : List Nat) :
    numIntersectsReadback 0 cumTilesHit = none := by
  simp [numIntersectsReadback, usizeSub]

/-- Modelled from the spec: stage 4.2 as literally worded, an EXCLUSIVE
scan over the tile-hit counts. Element i is the sum of the counts strictly
before i. The prefix_sum source file is not part of the repository
snapshot, so this definition follows the spec sentence word for word and
is compared against the inclusive variant below. -/
def exclusiveScanFrom (acc : Nat) : List Nat → List Nat
  | [] => []
  | x :: l => acc :: exclusiveScanFrom (acc + x) l

/-- Modelled from the spec: exclusive scan starting at zero. -/
def exclusive_scan (l : List Nat) : List Nat :=
  exclusiveScanFrom 0 l

/-- Modelled from the spec: the prefix_sum stage with element i holding
the sum of the counts up to AND INCLUDING i. The prefix_sum source file
is not part of the repository snapshot; the inclusive reading is forced
by the spec sentence that calls the LAST element the grand total, and by
render_gaussians reading back element num_points - 1 of this output as
num_intersects to size the intersection buffers. -/
def inclusiveScanFrom (acc : Nat) : List Nat → List Nat
  | [] => []
  | x :: l => (acc + x) :: inclusiveScanFrom (acc + x) l

/-- Modelled from the spec: inclusive scan starting at zero, the model of
the prefix_sum call in render_gaussians. -/
def prefix_sum (l : List Nat) : List Nat :=
  inclusiveScanFrom 0 l

theorem inclusiveScanFrom_length (acc : Nat) (l : List Nat) :
    (inclusiveScanFrom acc l).length = l.length := by
  induction l generalizing acc with
  | nil => rfl
  | cons x t ih => simp [inclusiveScanFrom, ih]

theorem inclusiveScanFrom_getLast (acc : Nat) (l : List Nat) (h : l ≠ []) :
    (inclusiveScanFrom acc l).getLast? = some (acc + l.sum) := by
  induction l generalizing acc with
  | nil => exact absurd rfl h
  | cons x t ih =>
    cases t with
    | nil => simp [inclusiveScanFrom]
    | cons y s =>
      have hr : inclusiveScanFrom (acc + x) (y :: s) =
          (acc + x + y) :: inclusiveScanFrom (acc + x + y) s := rfl
      rw [inclusiveScanFrom, hr, List.getLast?_cons_cons, ← hr,
        ih (acc + x) (by simp)]
      simp [Nat.add_assoc]

theorem drop_pred_getLast (xs : List Nat) (h : xs ≠ []) :
    ((xs.drop (xs.length - 1)).take 1).getLast? = xs.getLast? := by
  induction xs with
  | nil => exact absurd rfl h
  | cons a t ih =>
    cases t with
    | nil => simp
    | cons b s =>
      have h1 : (a :: b :: s).length - 1 = (b :: s).length - 1 + 1 := by
        simp [Nat.succ_sub_one]
      rw [h1, List.drop_succ_cons, ih (by simp), List.getLast?_cons_cons]

/-- C3 counterexample: the two halves of the claim contradict each other.
For the single-splat count list with value 5, the exclusive scan is the
one-element list holding 0, so its last element is 0 and not the grand
total 5. -/
theorem exclusive_scan_last_not_total :
    (exclusive_scan [5]).getLast? ≠ some (List.sum [5]) := by
  decide

/-- C3 as amended: the scan actually consumed by render_gaussians is the
INCLUSIVE prefix sum. For at least one splat, its last element is the
grand total of the tile-hit counts, and the num_intersects value that
render_gaussians reads back from position num_points - 1 of the scan
output is exactly the sum over all splats of their tile-hit counts. -/
theorem prefix_sum_readback_total (counts : List Nat) (h : counts ≠ []) :
    (prefix_sum counts).getLast? = some counts.sum ∧
    numIntersectsReadback counts.length (prefix_sum counts) = some counts.sum := by
  have hlast : (prefix_sum counts).getLast? = some counts.sum := by
    rw [prefix_sum, inclusiveScanFrom_getLast 0 counts h, Nat.zero_add]
  refine ⟨hlast, ?_⟩
  have hlen : (prefix_sum counts).length = counts.length :=
    inclusiveScanFrom_length 0 counts
  have hne : prefix_sum counts ≠ [] := by
    intro he
    rw [he] at hlen
    exact h (List.length_eq_zero.mp hlen.symm)
  have hpos : 1 ≤ counts.length := by
    cases counts with
    | nil => exact absurd rfl h
    | cons x t => simp
  rw [numIntersectsReadback, usizeSub, if_pos hpos]
  have e1 : counts.length - (counts.length - 1) = 1 := by omega
  simp only [Option.some_bind]
  rw [e1]
  have e2 : counts.length - 1 = (prefix_sum counts).length - 1 := by rw [hlen]
  rw [e2, drop_pred_getLast _ hne, hlast]

/-- Witness for prefix_sum_readback_total on a concrete count list. -/
theorem prefix_sum_readback_total_witness :
    (prefix_sum [2, 0, 3]).getLast? = some (List.sum [2, 0, 3]) ∧
    numIntersectsReadback (List.length [2, 0, 3]) (prefix_sum [2, 0, 3]) =
      some (List.sum [2, 0, 3]) :=
  prefix_sum_readback_total [2, 0, 3] (by decide)

/-- One entry of a DimCheck pattern: either a named dimension (the source
uses the string name D, modelled here by a Nat identifier) that is bound
on first use and must agree on later uses, or a fixed size. -/
inductive DimEntry
  | named (id : Nat)
  | fixed (n : Nat)

/-- Modelled from the spec: the DimCheck helper source is not part of the
repository snapshot. Checking one pattern entry against one actual size
either extends the binding context, confirms it, or fails. Failure is the
fail-fast precondition violation of the spec error taxonomy. -/
def checkDimEntry (ctx : List (Nat × Nat)) (d : DimEntry) (size : Nat) :
    Option (List (Nat × Nat)) :=
  match d with
  | .fixed n => if size = n then some ctx else none
  | .named s =>
    match ctx.lookup s with
    | some v => if size = v then some ctx else none
    | none => some ((s, size) :: ctx)

/-- Modelled from the spec: checking a whole pattern against a shape,
threading the named-dimension context; rank mismatch also fails. -/
def checkDims (ctx : List (Nat × Nat)) :
    List DimEntry → List Nat → Option (List (Nat × Nat))
  | [], [] => some ctx
  | d :: ds, n :: ns =>
    match checkDimEntry ctx d n with
    | some ctx2 => checkDims ctx2 ds ns
    | none => none
  | _, _ => none

/-- The DimCheck call sequence of the forward entry (render.rs lines 107
to 112): means, scales, quats and colors are checked against the pattern
(D, 4), opacity against (D), with D shared across all five tensors. -/
def forwardDimCheck (means scales quats colors opacity : List Nat) :
    Option (List (Nat × Nat)) :=
  (checkDims [] [DimEntry.named 0, DimEntry.fixed 4] means).bind fun c1 =>
  (checkDims c1 [DimEntry.named 0, DimEntry.fixed 4] scales).bind fun c2 =>
  (checkDims c2 [DimEntry.named 0, DimEntry.fixed 4] quats).bind fun c3 =>
  (checkDims c3 [DimEntry.named 0, DimEntry.fixed 4] colors).bind fun c4 =>
  checkDims c4 [DimEntry.named 0] opacity

/-- The DimCheck call of the backward entry (render.rs lines 288 to 291):
the output gradient must have shape height by width by 4. -/
def backwardDimCheck (height width : Nat) (vOutput : List Nat) :
    Option (List (Nat × Nat)) :=
  checkDims [] [DimEntry.fixed height, DimEntry.fixed width, DimEntry.fixed 4] vOutput

/-- The GPU kernels dispatched by the forward entry, in program order;
the dimension check precedes every dispatch in render_gaussians. -/
inductive KernelName
  | projectSplats
  | prefixSumKernel
  | mapGaussiansToIntersect
  | radixSortKernel
  | zeroKernel
  | getTileBinEdges
  | rasterize
  | rasterizeBackwards
  | projectBackwards
deriving DecidableEq

/-- Failure modes of a render call surfaced to the caller. -/
inductive RenderError
  | dimMismatch
deriving DecidableEq

/-- Embedding of the control flow of the forward entry around its checks:
the DimCheck runs first (render.rs line 107) and aborts the call before
the first kernel dispatch (line 133) when it fails. -/
def render_forward_dispatches (means scales quats colors opacity : List Nat) :
    Except RenderError (List KernelName) :=
  match forwardDimCheck means scales quats colors opacity with
  | none => Except.error RenderError.dimMismatch
  | some _ => Except.ok
      [KernelName.projectSplats, KernelName.prefixSumKernel,
       KernelName.mapGaussiansToIntersect, KernelName.radixSortKernel,
       KernelName.zeroKernel, KernelName.getTileBinEdges, KernelName.rasterize]

/-- Embedding of the control flow of the backward entry around its check:
the DimCheck on the output gradient runs first (render.rs line 288) and
aborts before any backward kernel dispatch (line 309 onward) when it
fails. -/
def render_backward_dispatches (height width : Nat) (vOutput : List Nat) :
    Except RenderError (List KernelName) :=
  match backwardDimCheck height width vOutput with
  | none => Except.error RenderError.dimMismatch
  | some _ => Except.ok
      [KernelName.zeroKernel, KernelName.rasterizeBackwards,
       KernelName.projectBackwards]

theorem checkDims_named_fixed_empty (s k : Nat) (shape : List Nat) :
    checkDims [] [DimEntry.named s, DimEntry.fixed k] shape =
      match shape with
      | [a, b] => if b = k then some [(s, a)] else none
      | _ => none := by
  rcases shape with _ | ⟨a, _ | ⟨b, _ | ⟨c, t⟩⟩⟩ <;>
    simp [checkDims, checkDimEntry, List.lookup] <;>
    split_ifs <;> simp [checkDims]

theorem checkDims_named_fixed_bound (s k v : Nat) (ctx : List (Nat × Nat))
    (hl : ctx.lookup s = some v) (shape : List Nat) :
    checkDims ctx [DimEntry.named s, DimEntry.fixed k] shape =
      match shape with
      | [a, b] => if a = v then (if b = k then some ctx else none) else none
      | _ => none := by
  rcases shape with _ | ⟨a, _ | ⟨b, _ | ⟨c, t⟩⟩⟩ <;>
    simp [checkDims, checkDimEntry, hl] <;>
    split_ifs <;> simp [checkDims]

theorem checkDims_named_bound (s v : Nat) (ctx : List (Nat × Nat))
    (hl : ctx.lookup s = some v) (shape : List Nat) :
    checkDims ctx [DimEntry.named s] shape =
      match shape with
      | [a] => if a = v then some ctx else none
      | _ => none := by
  rcases shape with _ | ⟨a, _ | ⟨b, t⟩⟩ <;>
    simp [checkDims, checkDimEntry, hl] <;>
    split_ifs <;> simp [checkDims]

theorem forwardDimCheck_isSome (ms ss qs cs os : List Nat) :
    (forwardDimCheck ms ss qs cs os).isSome ↔
      ∃ n, ms = [n, 4] ∧ ss = [n, 4] ∧ qs = [n, 4] ∧ cs = [n, 4] ∧ os = [n] := by
  constructor
  · intro hs
    rw [forwardDimCheck, checkDims_named_fixed_empty] at hs
    rcases ms with _ | ⟨a, _ | ⟨b, _ | ⟨c, t⟩⟩⟩ <;> simp at hs
    by_cases hb : b = 4
    swap
    · rw [if_neg hb] at hs; simp at hs
    subst hb
    rw [if_pos rfl] at hs
    simp only [Option.some_bind] at hs
    rw [checkDims_named_fixed_bound 0 4 a [(0, a)] (by simp [List.lookup])] at hs
    rcases ss with _ | ⟨a2, _ | ⟨b2, _ | ⟨c2, t2⟩⟩⟩ <;> simp at hs
    by_cases ha2 : a2 = a
    swap
    · rw [if_neg ha2] at hs; simp at hs
    subst ha2
    rw [if_pos rfl] at hs
    by_cases hb2 : b2 = 4
    swap
    · rw [if_neg hb2] at hs; simp at hs
    subst hb2
    rw [if_pos rfl] at hs
    simp only [Option.some_bind] at hs
    rw [checkDims_named_fixed_bound 0 4 a2 [(0, a2)] (by simp [List.lookup])] at hs
    rcases qs with _ | ⟨a3, _ | ⟨b3, _ | ⟨c3, t3⟩⟩⟩ <;> simp at hs
    by_cases ha3 : a3 = a2
    swap
    · rw [if_neg ha3] at hs; simp at hs
    subst ha3
    rw [if_pos rfl] at hs
    by_cases hb3 : b3 = 4
    swap
    · rw [if_neg hb3] at hs; simp at hs
    subst hb3
    rw [if_pos rfl] at hs
    simp only [Option.some_bind] at hs
    rw [checkDims_named_fixed_bound 0 4 a3 [(0, a3)] (by simp [List.lookup])] at hs
    rcases cs with _ | ⟨a4, _ | ⟨b4, _ | ⟨c4, t4⟩⟩⟩ <;> simp at hs
    by_cases ha4 : a4 = a3
    swap
    · rw [if_neg ha4] at hs; simp at hs
    subst ha4
    rw [if_pos rfl] at hs
    by_cases hb4 : b4 = 4
    swap
    · rw [if_neg hb4] at hs; simp at hs
    subst hb4
    rw [if_pos rfl] at hs
    simp only [Option.some_bind] at hs
    rw [checkDims_named_bound 0 a4 [(0, a4)] (by simp [List.lookup])] at hs
    rcases os with _ | ⟨a5, _ | ⟨b5, t5⟩⟩ <;> simp at hs
    exact ⟨a4, rfl, rfl, rfl, rfl, by rw [hs]⟩
  · rintro ⟨n, rfl, rfl, rfl, rfl, rfl⟩
    simp [forwardDimCheck, checkDims, checkDimEntry, List.lookup]

theorem backwardDimCheck_isSome (h w : Nat) (v : List Nat) :
    (backwardDimCheck h w v).isSome ↔ v = [h, w, 4] := by
  rcases v with _ | ⟨a, _ | ⟨b, _ | ⟨c, _ | ⟨d, t⟩⟩⟩⟩ <;>
    simp [backwardDimCheck, checkDims, checkDimEntry] <;>
    split_ifs <;> simp_all

/-- C7 counterexample: the interface shapes stated by the claim, means
with trailing dimension 3 and scales with trailing dimension 3, are
REJECTED by the forward entry: its DimCheck requires trailing dimension 4
on means, scales, quats and colors. -/
theorem forward_rejects_spec_shapes :
    render_forward_dispatches [1, 3] [1, 3] [1, 4] [1, 4] [1] =
      Except.error RenderError.dimMismatch := by
  rfl

/-- C7 as amended: shape preconditions fail fast. A forward call whose
five tensors do not have shapes [n,4], [n,4], [n,4], [n,4], [n] with a
shared leading dimension n, and a backward call whose output gradient is
not of shape height by width by 4, both abort with the dimension error
before any kernel dispatch; conversely the well-shaped inputs pass the
checks. -/
theorem dim_checks_fail_fast (ms ss qs cs os : List Nat)
    (height width : Nat) (vOutput : List Nat)
    (hfwd : forwardDimCheck ms ss qs cs os = none)
    (hbwd : vOutput ≠ [height, width, 4]) :
    render_forward_dispatches ms ss qs cs os = Except.error RenderError.dimMismatch ∧
    render_backward_dispatches height width vOutput = Except.error RenderError.dimMismatch ∧
    (∀ ms2 ss2 qs2 cs2 os2 : List Nat,
      (forwardDimCheck ms2 ss2 qs2 cs2 os2).isSome ↔
        ∃ n, ms2 = [n, 4] ∧ ss2 = [n, 4] ∧ qs2 = [n, 4] ∧ cs2 = [n, 4] ∧ os2 = [n]) ∧
    (∀ h2 w2 : Nat, (backwardDimCheck h2 w2 [h2, w2, 4]).isSome) := by
  refine ⟨?_, ?_, ?_, ?_⟩
  · rw [render_forward_dispatches, hfwd]
  · have hb : backwardDimCheck height width vOutput = none := by
      rcases hcase : backwardDimCheck height width vOutput with _ | c
      · rfl
      · have : (backwardDimCheck height width vOutput).isSome := by
          rw [hcase]; rfl
        exact absurd ((backwardDimCheck_isSome height width vOutput).mp this) hbwd
    rw [render_backward_dispatches, hb]
  · exact forwardDimCheck_isSome
  · intro h2 w2
    exact (backwardDimCheck_isSome h2 w2 [h2, w2, 4]).mpr rfl

/-- Witness for dim_checks_fail_fast: a concrete five-tensor forward call
with a leading-dimension mismatch and a concrete badly-shaped backward
gradient. -/
theorem dim_checks_fail_fast_witness :
    render_forward_dispatches [2, 4] [3, 4] [2, 4] [2, 4] [2] =
        Except.error RenderError.dimMismatch ∧
    render_backward_dispatches 8 6 [6, 8, 4] = Except.error RenderError.dimMismatch ∧
    (∀ ms2 ss2 qs2 cs2 os2 : List Nat,
      (forwardDimCheck ms2 ss2 qs2 cs2 os2).isSome ↔
        ∃ n, ms2 = [n, 4] ∧ ss2 = [n, 4] ∧ qs2 = [n, 4] ∧ cs2 = [n, 4] ∧ os2 = [n]) ∧
    (∀ h2 w2 : Nat, (backwardDimCheck h2 w2 [h2, w2, 4]).isSome) :=
  dim_checks_fail_fast [2, 4] [3, 4] [2, 4] [2, 4] [2] 8 6 [6, 8, 4]
    (by rfl) (by decide)

/-- The five differentiable inputs of the forward entry. -/
inductive SplatInput
  | means
  | scales
  | quats
  | colors
  | opacity
deriving DecidableEq

/-- Embedding of the checkpoint calls of render_gaussians (render.rs
lines 239 to 266): in the tracked branch, prep.checkpoint is called once
for each of the five inputs before the call returns; in the untracked
branch no checkpoint call is made. -/
def forwardCheckpoints (tracked : Bool) : List SplatInput :=
  if tracked then
    [SplatInput.means, SplatInput.scales, SplatInput.quats,
     SplatInput.colors, SplatInput.opacity]
  else []

/-- The shape of each forward input, as constrained by the forward
DimCheck, for leading dimension n. -/
def inputShape (n : Nat) : SplatInput → List Nat
  | SplatInput.opacity => [n]
  | _ => [n, 4]

/-- The shape of the gradient buffer the backward pass allocates for each
input (render.rs lines 305 to 308 and 365 to 367): v_means, v_scales,
v_quats and v_colors are [n, 4], v_opacity is [n]. -/
def gradShape (n : Nat) : SplatInput → List Nat
  | SplatInput.means => [n, 4]
  | SplatInput.scales => [n, 4]
  | SplatInput.quats => [n, 4]
  | SplatInput.colors => [n, 4]
  | SplatInput.opacity => [n]

/-- Embedding of the gradient registration sequence of the backward pass
(render.rs lines 390 to 412): for each of the five parent slots in order,
if the parent node is present (the input is tracked) exactly one gradient
buffer is registered for it; absent parents get no registration at all. -/
def backwardRegistrations (parents : SplatInput → Bool) (n : Nat) :
    List (SplatInput × List Nat) :=
  (if parents SplatInput.means then [(SplatInput.means, gradShape n SplatInput.means)] else []) ++
  (if parents SplatInput.scales then [(SplatInput.scales, gradShape n SplatInput.scales)] else []) ++
  (if parents SplatInput.quats then [(SplatInput.quats, gradShape n SplatInput.quats)] else []) ++
  (if parents SplatInput.colors then [(SplatInput.colors, gradShape n SplatInput.colors)] else []) ++
  (if parents SplatInput.opacity then [(SplatInput.opacity, gradShape n SplatInput.opacity)] else [])

/-- C8: a tracked forward call checkpoints exactly the five input buffers
(each exactly once) and an untracked call checkpoints nothing; the
backward pass registers exactly one gradient per tracked input and none
for untracked inputs, and every registered gradient buffer has the shape
of the corresponding checked forward input. -/
theorem checkpoint_registration_contract (parents : SplatInput → Bool) (n : Nat) :
    (∀ i : SplatInput, (forwardCheckpoints true).count i = 1) ∧
    forwardCheckpoints false = [] ∧
    (∀ i : SplatInput,
      (backwardRegistrations parents n).countP (fun e => e.1 = i) =
        if parents i then 1 else 0) ∧
    (∀ e ∈ backwardRegistrations parents n, e.2 = inputShape n e.1) := by
  refine ⟨?_, rfl, ?_, ?_⟩
  · intro i
    cases i <;> decide
  · intro i
    cases i <;>
      rcases hm : parents SplatInput.means <;>
      rcases hsc : parents SplatInput.scales <;>
      rcases hq : parents SplatInput.quats <;>
      rcases hc : parents SplatInput.colors <;>
      rcases ho : parents SplatInput.opacity <;>
      simp [backwardRegistrations, hm, hsc, hq, hc, ho, gradShape, List.countP_append,
        List.countP_cons, List.countP_nil]
  · intro e he
    rw [backwardRegistrations] at he
    simp only [List.mem_append] at he
    rcases he with ((((h | h) | h) | h) | h) <;>
      (split at h <;> simp_all [gradShape, inputShape])

/-- Embedding of argsort (render.rs lines 30 to 34): collect the indices
0..len and stably sort them by the data value at each index. The Rust
sort_by_key is a stable sort, modelled by the stable mergeSort; indices
are kept as Fin values internally so they can index the data directly. -/
def argsortF {α : Type} [LinearOrder α] (data : List α) : List (Fin data.length) :=
  (List.finRange data.length).mergeSort
    (fun i j => decide (data.get i ≤ data.get j))

/-- Embedding of argsort, with the indices as plain naturals as in the
returned Vec of usize. -/
def argsort {α : Type} [LinearOrder α] (data : List α) : List Nat :=
  (argsortF data).map Fin.val

theorem pair_sublist_of_pairwise_lt {α : Type} [LinearOrder α] {l : List α} {i j : α}
    (hp : l.Pairwise (· < ·)) (hi : i ∈ l) (hj : j ∈ l) (hij : i < j) :
    List.Sublist [i, j] l := by
  induction l with
  | nil => simp at hi
  | cons a t ih =>
    rcases List.mem_cons.mp hi with rfl | hit
    · have hjt : j ∈ t := by
        rcases List.mem_cons.mp hj with h | hjt
        · exact absurd (h ▸ hij) (lt_irrefl _)
        · exact hjt
      exact (List.singleton_sublist.mpr hjt).cons₂ _
    · have hjt : j ∈ t := by
        rcases List.mem_cons.mp hj with h | hjt
        · have hai : a < i := (List.pairwise_cons.mp hp).1 i hit
          exact absurd (h ▸ lt_trans hai hij) (lt_irrefl _)
        · exact hjt
      exact (ih (List.pairwise_cons.mp hp).2 hit hjt).cons _

/-- C9: argsort returns a permutation of the indices 0..len, reading the
data through the returned order is non-decreasing, and elements that
compare equal keep the original relative order of their indices: if index
positions i and j with i before j hold equal data, then i still appears
before j in the returned index list. -/
theorem argsort_correct {α : Type} [LinearOrder α] (data : List α) :
    List.Perm (argsort data) (List.range data.length) ∧
    ((argsortF data).map data.get).Pairwise (· ≤ ·) ∧
    (∀ i j : Fin data.length, i < j → data.get i = data.get j →
      List.Sublist [i.val, j.val] (argsort data)) := by
  have htrans : ∀ a b c : Fin data.length,
      decide (data.get a ≤ data.get b) → decide (data.get b ≤ data.get c) →
        decide (data.get a ≤ data.get c) := by
    intro a b c hab hbc
    simp only [decide_eq_true_iff] at hab hbc ⊢
    exact le_trans hab hbc
  have htotal : ∀ a b : Fin data.length,
      decide (data.get a ≤ data.get b) || decide (data.get b ≤ data.get a) := by
    intro a b
    simp only [Bool.or_eq_true, decide_eq_true_eq]
    exact le_total (data.get a) (data.get b)
  refine ⟨?_, ?_, ?_⟩
  · have hperm := List.mergeSort_perm (List.finRange data.length)
      (fun i j => decide (data.get i ≤ data.get j))
    have h2 := hperm.map Fin.val
    rw [List.map_coe_finRange] at h2
    exact h2
  · have hs := List.sorted_mergeSort htrans htotal (List.finRange data.length)
    rw [List.pairwise_map]
    exact hs.imp (fun h => by
      simp only [decide_eq_true_iff] at h
      exact h)
  · intro i j hij hdata
    have hsub : List.Sublist [i, j] (List.finRange data.length) :=
      pair_sublist_of_pairwise_lt (List.pairwise_lt_finRange data.length)
        (List.mem_finRange i) (List.mem_finRange j) hij
    have hab : decide (data.get i ≤ data.get j) = true :=
      decide_eq_true (le_of_eq hdata)
    have hms :=
      List.pair_sublist_mergeSort htrans htotal hab hsub
    have := hms.map Fin.val
    exact this

/-- Witness for argsort_correct: the duplicate values at positions 0 and 2
of a concrete list keep their original order in the output. -/
theorem argsort_correct_witness :
    List.Sublist [(0 : Nat), 2] (argsort [3, 1, 3]) :=
  (argsort_correct [3, 1, 3]).2.2 ⟨0, by decide⟩ ⟨2, by decide⟩
    (by decide) (by decide)

/-- Modelled from the spec: stage 4.3, the intersection mapper. Splat i
emits exactly tileHits i records, one per overlapped tile; each record
carries the owning splat id and its running slot within the splat. The
mapper shader source is not part of the repository snapshot. -/
def mapRecords (tileHits : Nat → Nat) (numPoints : Nat) : List (Nat × Nat) :=
  (List.range numPoints).flatMap fun i =>
    (List.range (tileHits i)).map fun c => (i, c)

/-- Modelled from the spec: stage 4.7 accumulation. The per-splat
accumulator starts from the zeroed buffer dispatched by the backward
entry (render.rs lines 309 to 336) and receives one atomic-add
contribution for every intersection record owned by the splat; the
contribution values themselves are parameters of the model. -/
def accumGrad {M : Type} [AddCommMonoid M] (recs : List (Nat × Nat))
    (contrib : Nat × Nat → M) (i : Nat) : M :=
  ((recs.filter fun r => r.1 == i).map contrib).sum

/-- Modelled from the spec: the rasterizer backward stage, producing the
accumulated per-splat gradients for 2D position, conic, color and
opacity. The color and opacity components are exactly the buffers the
backward entry registers as gradients for those inputs. -/
def rasterize_backwards {M : Type} [AddCommMonoid M] (numPoints : Nat)
    (tileHits : Nat → Nat) (cxy cconic ccolor copacity : Nat × Nat → M)
    (i : Nat) : M × M × M × M :=
  let recs := mapRecords tileHits numPoints
  (accumGrad recs cxy i, accumGrad recs cconic i,
   accumGrad recs ccolor i, accumGrad recs copacity i)

/-- Modelled from the spec: stage 4.8 applies the transposed projection
Jacobian of each splat to that splat gradients for 2D position, conic and
opacity, yielding the mean, scale and quaternion gradients. The Jacobian
application is kept as an arbitrary per-splat map; the only property the
spec forces is that applying a transposed linear map to zero gives
zero. -/
def project_backwards {M : Type} [AddCommMonoid M]
    (jac : Nat → M × M × M → M × M × M)
    (vxy vconic vopacity : Nat → M) (i : Nat) : M × M × M :=
  jac i (vxy i, vconic i, vopacity i)

theorem mapRecords_filter_culled {tileHits : Nat → Nat} {numPoints i : Nat}
    (h : tileHits i = 0) :
    (mapRecords tileHits numPoints).filter (fun r => r.1 == i) = [] := by
  rw [List.filter_eq_nil_iff]
  intro r hr
  rw [mapRecords, List.mem_flatMap] at hr
  obtain ⟨j, hj, hr2⟩ := hr
  rw [List.mem_map] at hr2
  obtain ⟨c, hc, rfl⟩ := hr2
  rw [List.mem_range] at hc
  intro hri
  rw [beq_iff_eq] at hri
  have hji : j = i := hri
  rw [hji, h] at hc
  exact Nat.not_lt_zero c hc

/-- C6: a splat culled in the forward projection (zero tile-hits) owns no
intersection record, so every accumulated gradient of the rasterizer
backward stage is exactly zero for it; the color and opacity gradients
registered for it are therefore zero, and the projector backward stage
turns its zero 2D gradients into exactly zero mean, scale and quaternion
gradients. -/
theorem culled_splats_zero_gradient {M : Type} [AddCommMonoid M]
    (numPoints : Nat) (tileHits : Nat → Nat)
    (cxy cconic ccolor copacity : Nat × Nat → M)
    (jac : Nat → M × M × M → M × M × M) (i : Nat)
    (hjac : ∀ s, jac s (0, 0, 0) = (0, 0, 0))
    (hculled : tileHits i = 0) :
    rasterize_backwards numPoints tileHits cxy cconic ccolor copacity i =
      (0, 0, 0, 0) ∧
    project_backwards jac
      (fun s => (rasterize_backwards numPoints tileHits cxy cconic ccolor copacity s).1)
      (fun s => (rasterize_backwards numPoints tileHits cxy cconic ccolor copacity s).2.1)
      (fun s => (rasterize_backwards numPoints tileHits cxy cconic ccolor copacity s).2.2.2)
      i = (0, 0, 0) := by
  have hz : ∀ contrib : Nat × Nat → M,
      accumGrad (mapRecords tileHits numPoints) contrib i = 0 := by
    intro contrib
    rw [accumGrad, mapRecords_filter_culled hculled]
    rfl
  have hrast : rasterize_backwards numPoints tileHits cxy cconic ccolor copacity i =
      (0, 0, 0, 0) := by
    rw [rasterize_backwards]
    simp only [hz]
  refine ⟨hrast, ?_⟩
  rw [project_backwards, hrast]
  simp only [hrast]
  exact hjac i

/-- Witness for culled_splats_zero_gradient at a concrete scene: splat 0
is culled while splat 1 hits two tiles, with identity Jacobian
application and constant contributions. -/
theorem culled_splats_zero_gradient_witness :
    rasterize_backwards (M := Int) 2 (fun j => if j = 0 then 0 else 2)
      (fun _ => 1) (fun _ => 2) (fun _ => 3) (fun _ => 4) 0 = (0, 0, 0, 0) ∧
    project_backwards (fun _ v => v)
      (fun s => (rasterize_backwards (M := Int) 2 (fun j => if j = 0 then 0 else 2)
        (fun _ => 1) (fun _ => 2) (fun _ => 3) (fun _ => 4) s).1)
      (fun s => (rasterize_backwards (M := Int) 2 (fun j => if j = 0 then 0 else 2)
        (fun _ => 1) (fun _ => 2) (fun _ => 3) (fun _ => 4) s).2.1)
      (fun s => (rasterize_backwards (M := Int) 2 (fun j => if j = 0 then 0 else 2)
        (fun _ => 1) (fun _ => 2) (fun _ => 3) (fun _ => 4) s).2.2.2)
      0 = (0, 0, 0) :=
  culled_splats_zero_gradient 2 (fun j => if j = 0 then 0 else 2)
    (fun _ => 1) (fun _ => 2) (fun _ => 3) (fun _ => 4)
    (fun _ v => v) 0 (fun _ => rfl) (by decide)

/-- The digit of a key at radix position k. -/
def radixDigit (base k n : Nat) : Nat := n / base ^ k % base

/-- Modelled from the spec: one counting pass of the stage 4.4 radix
sorter, for records of any type with the given key function. Records are
regrouped by the k-th base digit of their key, buckets in ascending digit
order, the order inside each bucket preserved; this order preservation is
the stability of a counting pass. The radix_sort source is not part of
the repository snapshot. -/
def radixPassOn {α : Type} (key : α → Nat) (base k : Nat) (l : List α) : List α :=
  (List.range base).flatMap fun d => l.filter fun a => radixDigit base k (key a) == d

/-- Modelled from the spec: the stage 4.4 multi-pass fixed-radix sorter,
least significant digit first. -/
def radixSortOn {α : Type} (key : α → Nat) (base passes : Nat) (l : List α) : List α :=
  (List.range passes).foldl (fun acc k => radixPassOn key base k acc) l

/-- Modelled from the spec: radix_argsort sorts the packed 32-bit
intersection keys with an 8-bit digit (4 passes) and permutes the
companion splat-id array identically, modelled by sorting the zipped
key-id pairs by key and unzipping. -/
def radix_argsort (keys gids : List Nat) : List Nat × List Nat :=
  ((radixSortOn Prod.fst 256 4 (keys.zip gids)).map Prod.fst,
   (radixSortOn Prod.fst 256 4 (keys.zip gids)).map Prod.snd)

/-- The same radix sorter run on the position-tagged records; used to
state stability relative to the original record order. -/
def radixEnum (keys gids : List Nat) : List (Nat × (Nat × Nat)) :=
  radixSortOn (fun a => a.2.1) 256 4 (keys.zip gids).enum

theorem radixDigit_lt (base k n : Nat) (hb : 0 < base) : radixDigit base k n < base :=
  Nat.mod_lt _ hb

theorem sum_map_ite_range_ge (n D c : Nat) (h : n ≤ D) :
    ((List.range n).map fun d => if D = d then c else 0).sum = 0 := by
  induction n with
  | zero => rfl
  | succ m ih =>
    rw [List.range_succ, List.map_append, List.sum_append,
      ih (Nat.le_of_succ_le h)]
    have hne : D ≠ m := by omega
    simp [hne]

theorem sum_map_ite_range (n D c : Nat) (h : D < n) :
    ((List.range n).map fun d => if D = d then c else 0).sum = c := by
  induction n with
  | zero => exact absurd h (Nat.not_lt_zero D)
  | succ m ih =>
    rw [List.range_succ, List.map_append, List.sum_append]
    by_cases hD : D < m
    · rw [ih hD]
      have hne : D ≠ m := by omega
      simp [hne]
    · have hDm : D = m := by omega
      rw [sum_map_ite_range_ge m D c (by omega)]
      simp [hDm]

theorem count_radixPassOn {α : Type} [DecidableEq α] (key : α → Nat) (base k : Nat)
    (hb : 0 < base) (l : List α) (a : α) :
    (radixPassOn key base k l).count a = l.count a := by
  rw [radixPassOn, List.count_flatMap]
  have hcf : ∀ d : Nat,
      (l.filter fun x => radixDigit base k (key x) == d).count a =
        if radixDigit base k (key a) = d then l.count a else 0 := by
    intro d
    by_cases hd : radixDigit base k (key a) = d
    · rw [if_pos hd]
      exact List.count_filter (by simp [hd])
    · rw [if_neg hd]
      rw [List.count_eq_zero]
      intro hmem
      rw [List.mem_filter] at hmem
      exact hd (by simpa using hmem.2)
  calc ((List.range base).map
        ((List.count a) ∘ fun d => l.filter fun x => radixDigit base k (key x) == d)).sum
      = ((List.range base).map fun d =>
          if radixDigit base k (key a) = d then l.count a else 0).sum := by
        congr 1
        exact List.map_congr_left fun d _ => hcf d
    _ = l.count a := sum_map_ite_range base (radixDigit base k (key a)) (l.count a)
          (radixDigit_lt base k (key a) hb)

theorem radixPassOn_perm {α : Type} [DecidableEq α] (key : α → Nat) (base k : Nat)
    (hb : 0 < base) (l : List α) :
    List.Perm (radixPassOn key base k l) l :=
  List.perm_iff_count.mpr fun a => count_radixPassOn key base k hb l a

theorem radixSortOn_perm {α : Type} [DecidableEq α] (key : α → Nat) (base passes : Nat)
    (hb : 0 < base) (l : List α) :
    List.Perm (radixSortOn key base passes l) l := by
  induction passes with
  | zero => exact List.Perm.refl l
  | succ p ih =>
    rw [radixSortOn, List.range_succ, List.foldl_append, List.foldl_cons, List.foldl_nil]
    exact (radixPassOn_perm key base p hb _).trans ih

/-- The order established after sorting on the key modulo m, ties broken
by the original position tag: the invariant the radix passes maintain. -/
def keyIdxLe {α : Type} (key idx : α → Nat) (m : Nat) (a b : α) : Prop :=
  key a % m < key b % m ∨ (key a % m = key b % m ∧ idx a ≤ idx b)

theorem mod_mul_decomp (base k x : Nat) :
    x % base ^ (k + 1) = x % base ^ k + base ^ k * radixDigit base k x := by
  rw [Nat.pow_succ, Nat.mod_mul]
  rfl

theorem radixSortOn_succ {α : Type} (key : α → Nat) (base p : Nat) (l : List α) :
    radixSortOn key base (p + 1) l =
      radixPassOn key base p (radixSortOn key base p l) := by
  rw [radixSortOn, List.range_succ, List.foldl_append, List.foldl_cons, List.foldl_nil]
  rfl

theorem pairwise_flatMap_buckets {α : Type} {S : α → α → Prop}
    (g : Nat → List α) (n : Nat)
    (hin : ∀ d, d < n → (g d).Pairwise S)
    (hacross : ∀ d1 d2, d1 < d2 → d2 < n → ∀ a ∈ g d1, ∀ b ∈ g d2, S a b) :
    ((List.range n).flatMap g).Pairwise S := by
  induction n with
  | zero => simp
  | succ m ih =>
    rw [List.range_succ, List.flatMap_append, List.pairwise_append]
    refine ⟨ih (fun d hd => hin d (by omega))
      (fun d1 d2 h1 h2 => hacross d1 d2 h1 (by omega)), ?_, ?_⟩
    · simp only [List.flatMap_cons, List.flatMap_nil, List.append_nil]
      exact hin m (Nat.lt_succ_self m)
    · intro a ha b hb
      simp only [List.flatMap_cons, List.flatMap_nil, List.append_nil] at hb
      rw [List.mem_flatMap] at ha
      obtain ⟨d, hd, had⟩ := ha
      rw [List.mem_range] at hd
      exact hacross d m hd (Nat.lt_succ_self m) a had b hb

theorem pairwise_radixPassOn {α : Type} (key idx : α → Nat) (base k : Nat)
    (hb : 0 < base) (l : List α)
    (h : l.Pairwise (keyIdxLe key idx (base ^ k))) :
    (radixPassOn key base k l).Pairwise (keyIdxLe key idx (base ^ (k + 1))) := by
  have hBpos : 0 < base ^ k := pow_pos hb k
  rw [radixPassOn]
  apply pairwise_flatMap_buckets
  · intro d _
    have hfil := h.filter (fun a => radixDigit base k (key a) == d)
    apply hfil.imp_of_mem
    intro a b ha hb2 hab
    rw [List.mem_filter] at ha hb2
    have hda : radixDigit base k (key a) = d := by simpa using ha.2
    have hdb : radixDigit base k (key b) = d := by simpa using hb2.2
    have e1 := mod_mul_decomp base k (key a)
    have e2 := mod_mul_decomp base k (key b)
    rw [hda] at e1
    rw [hdb] at e2
    simp only [keyIdxLe] at hab ⊢
    rcases hab with hlt | ⟨heq, hidx⟩
    · left
      omega
    · right
      exact ⟨by omega, hidx⟩
  · intro d1 d2 h12 _ a ha b hb2
    rw [List.mem_filter] at ha hb2
    have hda : radixDigit base k (key a) = d1 := by simpa using ha.2
    have hdb : radixDigit base k (key b) = d2 := by simpa using hb2.2
    have e1 := mod_mul_decomp base k (key a)
    have e2 := mod_mul_decomp base k (key b)
    rw [hda] at e1
    rw [hdb] at e2
    have hra : key a % base ^ k < base ^ k := Nat.mod_lt _ hBpos
    have hrb : key b % base ^ k < base ^ k := Nat.mod_lt _ hBpos
    have hmul : base ^ k * (d1 + 1) ≤ base ^ k * d2 := Nat.mul_le_mul_left _ h12
    have hms : base ^ k * (d1 + 1) = base ^ k * d1 + base ^ k := Nat.mul_succ _ _
    simp only [keyIdxLe]
    left
    generalize key a % base ^ k = ra at e1 hra
    generalize key b % base ^ k = rb at e2 hrb
    omega

theorem pairwise_enum_init (l : List (Nat × Nat)) :
    l.enum.Pairwise (keyIdxLe (fun a => a.2.1) Prod.fst 1) := by
  have h1 : (l.enum.map Prod.fst).Pairwise (· < ·) := by
    rw [List.enum_map_fst]
    exact List.pairwise_lt_range l.length
  have h2 : l.enum.Pairwise (fun a b => a.1 < b.1) := List.pairwise_map.mp h1
  apply h2.imp
  intro a b hab
  simp only [keyIdxLe]
  exact Or.inr ⟨by simp [Nat.mod_one], Nat.le_of_lt hab⟩

theorem pairwise_radixSortOn {α : Type} (key idx : α → Nat) (base passes : Nat)
    (hb : 0 < base) (l : List α) (h : l.Pairwise (keyIdxLe key idx 1)) :
    (radixSortOn key base passes l).Pairwise (keyIdxLe key idx (base ^ passes)) := by
  induction passes with
  | zero => exact h
  | succ p ih =>
    rw [radixSortOn_succ]
    exact pairwise_radixPassOn key idx base p hb _ ih

theorem map_radixPassOn {α β : Type} (f : α → β) (key : β → Nat) (base k : Nat)
    (l : List α) :
    (radixPassOn (fun a => key (f a)) base k l).map f =
      radixPassOn key base k (l.map f) := by
  rw [radixPassOn, radixPassOn, List.map_flatMap]
  congr 1
  funext d
  rw [List.filter_map]
  rfl

theorem map_radixSortOn {α β : Type} (f : α → β) (key : β → Nat) (base passes : Nat)
    (l : List α) :
    (radixSortOn (fun a => key (f a)) base passes l).map f =
      radixSortOn key base passes (l.map f) := by
  induction passes with
  | zero => rfl
  | succ p ih =>
    rw [radixSortOn_succ, radixSortOn_succ, map_radixPassOn, ih]

theorem radixEnum_map_snd (keys gids : List Nat) :
    (radixEnum keys gids).map Prod.snd =
      radixSortOn Prod.fst 256 4 (keys.zip gids) := by
  have h := map_radixSortOn (Prod.snd : Nat × (Nat × Nat) → Nat × Nat)
    Prod.fst 256 4 (keys.zip gids).enum
  rw [List.enum_map_snd] at h
  exact h

theorem zip_of_maps {α β : Type} (lp : List (α × β)) :
    (lp.map Prod.fst).zip (lp.map Prod.snd) = lp := by
  induction lp with
  | nil => rfl
  | cons a t ih => simp [ih]

/-- C4: for 32-bit packed keys (any distribution, duplicates included),
radix_argsort returns the key-id pairs as a permutation of the input
pairs, so the companion splat-id array is permuted identically to the key
array; the sorted keys are non-decreasing when read as (tile, depth) for
ANY split of the key into high tile bits and low depth bits, so tile ids
are non-decreasing and depths are non-decreasing within a tile; and the
sort is stable: running the same sorter on position-tagged records (which
projects onto the returned pair list) orders records with equal keys by
strictly increasing original position. -/
theorem radix_argsort_sorted_stable (keys gids : List Nat) (dBits : Nat)
    (hbound : ∀ x ∈ keys, x < 256 ^ 4) :
    List.Perm ((radix_argsort keys gids).1.zip (radix_argsort keys gids).2)
      (keys.zip gids) ∧
    ((radix_argsort keys gids).1.Pairwise fun x y =>
      x / 2 ^ dBits < y / 2 ^ dBits ∨
        (x / 2 ^ dBits = y / 2 ^ dBits ∧ x % 2 ^ dBits ≤ y % 2 ^ dBits)) ∧
    (radixEnum keys gids).map Prod.snd =
      (radix_argsort keys gids).1.zip (radix_argsort keys gids).2 ∧
    ((radixEnum keys gids).Pairwise fun a b => a.2.1 = b.2.1 → a.1 < b.1) := by
  have hb : (0 : Nat) < 256 := by decide
  have hzip : (radix_argsort keys gids).1.zip (radix_argsort keys gids).2 =
      radixSortOn Prod.fst 256 4 (keys.zip gids) := by
    dsimp only [radix_argsort]
    exact zip_of_maps _
  have hE : (radixEnum keys gids).Pairwise
      (keyIdxLe (fun a => a.2.1) Prod.fst (256 ^ 4)) :=
    pairwise_radixSortOn (fun a : Nat × (Nat × Nat) => a.2.1) Prod.fst 256 4 hb _
      (pairwise_enum_init (keys.zip gids))
  have hEperm : List.Perm (radixEnum keys gids) (keys.zip gids).enum :=
    radixSortOn_perm (fun a : Nat × (Nat × Nat) => a.2.1) 256 4 hb _
  have memE : ∀ a, a ∈ radixEnum keys gids → a.2.1 ∈ keys := by
    intro a ha
    have h1 : a ∈ (keys.zip gids).enum := hEperm.mem_iff.mp ha
    have h2 : a.2 ∈ (keys.zip gids).enum.map Prod.snd :=
      List.mem_map_of_mem Prod.snd h1
    rw [List.enum_map_snd] at h2
    exact (List.of_mem_zip h2).1
  have hEle : (radixEnum keys gids).Pairwise fun a b => a.2.1 ≤ b.2.1 := by
    apply hE.imp_of_mem
    intro a b ha hb2 hab
    have hka : a.2.1 < 256 ^ 4 := hbound _ (memE a ha)
    have hkb : b.2.1 < 256 ^ 4 := hbound _ (memE b hb2)
    have e1 : a.2.1 % 256 ^ 4 = a.2.1 := Nat.mod_eq_of_lt hka
    have e2 : b.2.1 % 256 ^ 4 = b.2.1 := Nat.mod_eq_of_lt hkb
    simp only [keyIdxLe] at hab
    rcases hab with hlt | ⟨heq, _⟩
    · omega
    · omega
  refine ⟨?_, ?_, ?_, ?_⟩
  · rw [hzip]
    exact radixSortOn_perm Prod.fst 256 4 hb (keys.zip gids)
  · have hks : (radix_argsort keys gids).1 =
        (radixEnum keys gids).map fun a => a.2.1 := by
      dsimp only [radix_argsort]
      rw [← radixEnum_map_snd, List.map_map]
      rfl
    rw [hks, List.pairwise_map]
    apply hEle.imp
    intro a b hab
    have hdiv : a.2.1 / 2 ^ dBits ≤ b.2.1 / 2 ^ dBits := Nat.div_le_div_right hab
    rcases Nat.lt_or_ge (a.2.1 / 2 ^ dBits) (b.2.1 / 2 ^ dBits) with h | h
    · exact Or.inl h
    · have heq : a.2.1 / 2 ^ dBits = b.2.1 / 2 ^ dBits := Nat.le_antisymm hdiv h
      refine Or.inr ⟨heq, ?_⟩
      have e1 := Nat.div_add_mod (a.2.1) (2 ^ dBits)
      have e2 := Nat.div_add_mod (b.2.1) (2 ^ dBits)
      rw [heq] at e1
      omega
  · rw [radixEnum_map_snd, hzip]
  · have hnd : ((radixEnum keys gids).map Prod.fst).Nodup := by
      have hp : List.Perm ((radixEnum keys gids).map Prod.fst)
          ((keys.zip gids).enum.map Prod.fst) := hEperm.map Prod.fst
      rw [List.enum_map_fst] at hp
      exact hp.nodup_iff.mpr (List.nodup_range _)
    have hne : (radixEnum keys gids).Pairwise fun a b => a.1 ≠ b.1 :=
      List.pairwise_map.mp hnd
    apply (hE.and hne).imp
    intro a b hpair
    rcases hpair with ⟨hab, hneq⟩
    simp only [keyIdxLe] at hab
    intro hkey
    rcases hab with hlt | ⟨_, hidx⟩
    · rw [hkey] at hlt
      exact absurd hlt (lt_irrefl _)
    · exact Nat.lt_of_le_of_ne hidx hneq

/-- Witness for radix_argsort_sorted_stable on a concrete record set with
a duplicate key. -/
theorem radix_argsort_sorted_stable_witness :
    List.Perm ((radix_argsort [257, 2, 257] [7, 8, 9]).1.zip
        (radix_argsort [257, 2, 257] [7, 8, 9]).2)
      (List.zip [257, 2, 257] [7, 8, 9]) ∧
    ((radix_argsort [257, 2, 257] [7, 8, 9]).1.Pairwise fun x y =>
      x / 2 ^ 8 < y / 2 ^ 8 ∨
        (x / 2 ^ 8 = y / 2 ^ 8 ∧ x % 2 ^ 8 ≤ y % 2 ^ 8)) ∧
    (radixEnum [257, 2, 257] [7, 8, 9]).map Prod.snd =
      (radix_argsort [257, 2, 257] [7, 8, 9]).1.zip
        (radix_argsort [257, 2, 257] [7, 8, 9]).2 ∧
    ((radixEnum [257, 2, 257] [7, 8, 9]).Pairwise fun a b =>
      a.2.1 = b.2.1 → a.1 < b.1) :=
  radix_argsort_sorted_stable [257, 2, 257] [7, 8, 9] 8 (by decide)

/-- Write the range start of one tile bin, keeping its end. -/
def setStart (bins : Nat → Nat × Nat) (t v : Nat) : Nat → Nat × Nat :=
  fun u => if u = t then (v, (bins t).2) else bins u

/-- Write the range end of one tile bin, keeping its start. -/
def setEnd (bins : Nat → Nat × Nat) (t v : Nat) : Nat → Nat × Nat :=
  fun u => if u = t then ((bins t).1, v) else bins u

/-- Modelled from the spec: the per-record rule of stage 4.5. Record i
compares its tile id with its left neighbor: the first record, or one
whose tile differs from its left neighbor, writes the current index as
its own tile range start and (when a left neighbor exists) as the
previous tile range end; the last record in addition closes its own tile
at num_intersects, which is what the spec partition property (union of
the bins is the whole sorted array) dictates for the final run. The
GetTileBinEdges shader source is not part of the repository snapshot. -/
def tileBinBoundary (tiles : List Nat) (bins : Nat → Nat × Nat) (i : Nat) :
    Nat → Nat × Nat :=
  if i = 0 then setStart bins (tiles.getD i 0) 0
  else if tiles.getD (i - 1) 0 ≠ tiles.getD i 0 then
    setStart (setEnd bins (tiles.getD (i - 1) 0) i) (tiles.getD i 0) i
  else bins

/-- Modelled from the spec: the last record additionally closes its own
tile at num_intersects, on top of the boundary rule. -/
def tileBinStep (M : Nat) (tiles : List Nat) (bins : Nat → Nat × Nat) (i : Nat) :
    Nat → Nat × Nat :=
  if i + 1 = M then setEnd (tileBinBoundary tiles bins i) (tiles.getD i 0) M
  else tileBinBoundary tiles bins i

/-- Modelled from the spec: the tile-range extraction over the sorted
tile ids of the intersection records, starting from the zero-initialized
bins produced by the Zero dispatch (render.rs lines 189 to 195). One
sequential fold stands for the data-parallel threads: on sorted input
every bin field is written by at most one record, so the order does not
matter. -/
def get_tile_bin_edges (tiles : List Nat) : Nat → Nat × Nat :=
  (List.range tiles.length).foldl (tileBinStep tiles.length tiles) fun _ => (0, 0)

/-- Number of records strictly before the run of tile t. -/
def runLo (tiles : List Nat) (t : Nat) : Nat :=
  tiles.countP fun x => decide (x < t)

/-- Number of records up to and including the run of tile t. -/
def runHi (tiles : List Nat) (t : Nat) : Nat :=
  tiles.countP fun x => decide (x ≤ t)

theorem runHi_le_length (tiles : List Nat) (t : Nat) :
    runHi tiles t ≤ tiles.length :=
  List.countP_le_length _

theorem runLo_cons (a : Nat) (l : List Nat) (t : Nat) :
    runLo (a :: l) t = runLo l t + if a < t then 1 else 0 := by
  rw [runLo, runLo, List.countP_cons]
  by_cases h : a < t
  · simp [h]
  · simp [h]

theorem runHi_cons (a : Nat) (l : List Nat) (t : Nat) :
    runHi (a :: l) t = runHi l t + if a ≤ t then 1 else 0 := by
  rw [runHi, runHi, List.countP_cons]
  by_cases h : a ≤ t
  · simp [h]
  · simp [h]

theorem count_cons_ite (a t : Nat) (l : List Nat) :
    (a :: l).count t = l.count t + if t = a then 1 else 0 := by
  rw [List.count_cons]
  by_cases h : t = a
  · simp [h]
  · simp [h, Ne.symm h]

theorem runLo_tail_zero (a : Nat) (l : List Nat) (t : Nat)
    (hs : (a :: l).Pairwise (· ≤ ·)) (h : t ≤ a) : runLo l t = 0 := by
  rw [runLo, List.countP_eq_zero]
  intro x hx
  have : a ≤ x := (List.pairwise_cons.mp hs).1 x hx
  simp only [decide_eq_true_eq]
  omega

theorem runHi_tail_zero (a : Nat) (l : List Nat) (t : Nat)
    (hs : (a :: l).Pairwise (· ≤ ·)) (h : t < a) : runHi l t = 0 := by
  rw [runHi, List.countP_eq_zero]
  intro x hx
  have : a ≤ x := (List.pairwise_cons.mp hs).1 x hx
  simp only [decide_eq_true_eq]
  omega

theorem getD_mem_of_lt (l : List Nat) (j : Nat) (hj : j < l.length) :
    l.getD j 0 ∈ l := by
  induction l generalizing j with
  | nil => simp at hj
  | cons a t ih =>
    rcases j with _ | j2
    · simp
    · rw [List.getD_cons_succ]
      exact List.mem_cons_of_mem a (ih j2 (by simpa using hj))

theorem runHi_eq_runLo_add_count (tiles : List Nat) (t : Nat) :
    runHi tiles t = runLo tiles t + tiles.count t := by
  induction tiles with
  | nil => rfl
  | cons a l ih =>
    rw [runHi_cons, runLo_cons, count_cons_ite, ih]
    rcases Nat.lt_trichotomy a t with h | h | h
    · rw [if_pos (Nat.le_of_lt h), if_pos h, if_neg (by omega)]
      omega
    · rw [if_pos (Nat.le_of_eq h), if_neg (by omega), if_pos h.symm]
      omega
    · rw [if_neg (by omega), if_neg (by omega), if_neg (by omega)]
      omega

theorem runLo_le_runHi (tiles : List Nat) (t : Nat) :
    runLo tiles t ≤ runHi tiles t := by
  have := runHi_eq_runLo_add_count tiles t
  omega

theorem mem_iff_run (tiles : List Nat) (t : Nat) :
    t ∈ tiles ↔ runLo tiles t < runHi tiles t := by
  rw [runHi_eq_runLo_add_count]
  constructor
  · intro h
    have : 0 < tiles.count t := List.count_pos_iff.mpr h
    omega
  · intro h
    have : 0 < tiles.count t := by omega
    exact List.count_pos_iff.mp this

theorem runHi_le_runLo_of_lt (tiles : List Nat) (t u : Nat) (h : t < u) :
    runHi tiles t ≤ runLo tiles u := by
  apply List.countP_mono_left
  intro a _ ha
  simp only [decide_eq_true_eq] at ha ⊢
  omega

theorem runLo_le (tiles : List Nat) (hs : tiles.Pairwise (· ≤ ·))
    (j : Nat) (hj : j < tiles.length) :
    runLo tiles (tiles.getD j 0) ≤ j := by
  induction tiles generalizing j with
  | nil => simp at hj
  | cons a l ih =>
    rcases j with _ | j2
    · rw [List.getD_cons_zero, runLo_cons, runLo_tail_zero a l a hs (le_refl a),
        if_neg (lt_irrefl a)]
    · rw [List.getD_cons_succ, runLo_cons]
      have ihl := ih (List.pairwise_cons.mp hs).2 j2 (by simpa using hj)
      by_cases h : a < l.getD j2 0
      · rw [if_pos h]
        omega
      · rw [if_neg h]
        omega

theorem lt_runHi (tiles : List Nat) (hs : tiles.Pairwise (· ≤ ·))
    (j : Nat) (hj : j < tiles.length) :
    j < runHi tiles (tiles.getD j 0) := by
  induction tiles generalizing j with
  | nil => simp at hj
  | cons a l ih =>
    rcases j with _ | j2
    · rw [List.getD_cons_zero, runHi_cons, if_pos (le_refl a)]
      omega
    · rw [List.getD_cons_succ, runHi_cons]
      have hj2 : j2 < l.length := by simpa using hj
      have ihl := ih (List.pairwise_cons.mp hs).2 j2 hj2
      have hle : a ≤ l.getD j2 0 :=
        (List.pairwise_cons.mp hs).1 _ (getD_mem_of_lt l j2 hj2)
      rw [if_pos hle]
      omega

theorem getD_eq_of_run (tiles : List Nat) (hs : tiles.Pairwise (· ≤ ·))
    (j : Nat) (hj : j < tiles.length) (t : Nat)
    (h1 : runLo tiles t ≤ j) (h2 : j < runHi tiles t) :
    tiles.getD j 0 = t := by
  induction tiles generalizing j with
  | nil => simp at hj
  | cons a l ih =>
    rw [runLo_cons] at h1
    rw [runHi_cons] at h2
    rcases j with _ | j2
    · rw [List.getD_cons_zero]
      by_cases hat : a < t
      · rw [if_pos hat] at h1
        omega
      · by_cases hta : t < a
        · rw [runHi_tail_zero a l t hs hta, if_neg (by omega)] at h2
          omega
        · omega
    · rw [List.getD_cons_succ]
      have hj2 : j2 < l.length := by simpa using hj
      by_cases hat : a < t
      · rw [if_pos hat] at h1
        rw [if_pos (Nat.le_of_lt hat)] at h2
        exact ih (List.pairwise_cons.mp hs).2 j2 hj2 (by omega) (by omega)
      · by_cases hta : t < a
        · rw [runHi_tail_zero a l t hs hta, if_neg (by omega)] at h2
          omega
        · have hae : a = t := by omega
          have hz : runLo l t = 0 := runLo_tail_zero a l t hs (by omega)
          rw [if_pos (by omega : a ≤ t)] at h2
          exact ih (List.pairwise_cons.mp hs).2 j2 hj2 (by omega) (by omega)

/-- The bin state after the first k records have been processed: a tile
whose run start has been reached carries its start, a tile whose run end
has been passed (or closed by the final record) carries its end, and all
other fields still hold the zero initialization. -/
def binsInv (tiles : List Nat) (k t : Nat) : Nat × Nat :=
  (if t ∈ tiles ∧ runLo tiles t < k then runLo tiles t else 0,
   if t ∈ tiles ∧ (runHi tiles t < k ∨
       (runHi tiles t = tiles.length ∧ k = tiles.length))
     then runHi tiles t else 0)

/-- The bin state after the boundary rule of record k, before the
final-record rule. -/
def binsMid (tiles : List Nat) (k t : Nat) : Nat × Nat :=
  (if t ∈ tiles ∧ runLo tiles t < k + 1 then runLo tiles t else 0,
   if t ∈ tiles ∧ runHi tiles t < k + 1 then runHi tiles t else 0)

theorem binsInv_zero (tiles : List Nat) (hM : 0 < tiles.length) (t : Nat) :
    binsInv tiles 0 t = (0, 0) := by
  rw [binsInv]
  rw [if_neg, if_neg]
  · rintro ⟨hmem, h | h⟩
    · omega
    · omega
  · rintro ⟨hmem, h⟩
    omega

theorem setStart_eq (bins : Nat → Nat × Nat) (t v : Nat) :
    setStart bins t v t = (v, (bins t).2) := by
  rw [setStart]
  simp

theorem setStart_ne (bins : Nat → Nat × Nat) (t v u : Nat) (h : u ≠ t) :
    setStart bins t v u = bins u := by
  rw [setStart]
  simp [h]

theorem setEnd_eq (bins : Nat → Nat × Nat) (t v : Nat) :
    setEnd bins t v t = ((bins t).1, v) := by
  rw [setEnd]
  simp

theorem setEnd_ne (bins : Nat → Nat × Nat) (t v u : Nat) (h : u ≠ t) :
    setEnd bins t v u = bins u := by
  rw [setEnd]
  simp [h]

theorem binsInv_fst (tiles : List Nat) (k t : Nat) :
    (binsInv tiles k t).1 =
      if t ∈ tiles ∧ runLo tiles t < k then runLo tiles t else 0 := rfl

theorem binsInv_snd (tiles : List Nat) (k t : Nat) :
    (binsInv tiles k t).2 =
      if t ∈ tiles ∧ (runHi tiles t < k ∨
          (runHi tiles t = tiles.length ∧ k = tiles.length))
        then runHi tiles t else 0 := rfl

theorem binsMid_fst (tiles : List Nat) (k t : Nat) :
    (binsMid tiles k t).1 =
      if t ∈ tiles ∧ runLo tiles t < k + 1 then runLo tiles t else 0 := rfl

theorem binsMid_snd (tiles : List Nat) (k t : Nat) :
    (binsMid tiles k t).2 =
      if t ∈ tiles ∧ runHi tiles t < k + 1 then runHi tiles t else 0 := rfl

theorem tileBinBoundary_inv (tiles : List Nat) (hs : tiles.Pairwise (· ≤ ·))
    (k : Nat) (hk : k < tiles.length) (t : Nat) :
    tileBinBoundary tiles (binsInv tiles k) k t = binsMid tiles k t := by
  have hMpos : 0 < tiles.length := by omega
  have hct : tiles.getD k 0 ∈ tiles := getD_mem_of_lt tiles k hk
  have hctlo : runLo tiles (tiles.getD k 0) ≤ k := runLo_le tiles hs k hk
  have hcthi : k < runHi tiles (tiles.getD k 0) := lt_runHi tiles hs k hk
  have hF4 : ∀ u, u ∈ tiles → runLo tiles u = k → u = tiles.getD k 0 := by
    intro u hu he
    exact (getD_eq_of_run tiles hs k hk u (le_of_eq he)
      (by rw [← he]; exact (mem_iff_run tiles u).mp hu)).symm
  have hF5 : ∀ u, u ∈ tiles → runHi tiles u = k →
      (0 < k ∧ tiles.getD (k - 1) 0 = u) := by
    intro u hu he
    have hmem := (mem_iff_run tiles u).mp hu
    have hkpos : 0 < k := by omega
    exact ⟨hkpos, getD_eq_of_run tiles hs (k - 1) (by omega) u (by omega) (by omega)⟩
  rw [tileBinBoundary, Prod.ext_iff]
  by_cases hk0 : k = 0
  · subst hk0
    rw [if_pos rfl]
    by_cases ht : t = tiles.getD 0 0
    · subst ht
      rw [setStart_eq]
      constructor
      · show (0 : Nat) = (binsMid tiles 0 (tiles.getD 0 0)).1
        rw [binsMid_fst, if_pos ⟨hct, by omega⟩]
        omega
      · show (binsInv tiles 0 (tiles.getD 0 0)).2 = (binsMid tiles 0 (tiles.getD 0 0)).2
        rw [binsInv_snd, binsMid_snd, if_neg, if_neg]
        · rintro ⟨hmem, hhi⟩
          omega
        · rintro ⟨hmem, hhi | ⟨hhiM, hkM⟩⟩
          · omega
          · omega
    · rw [setStart_ne _ _ _ _ ht]
      have hnotlo : ¬(t ∈ tiles ∧ runLo tiles t < 0 + 1) := by
        rintro ⟨hmem, hlo⟩
        have hlo0 : runLo tiles t = 0 := by omega
        exact ht (hF4 t hmem hlo0)
      have hnothi : ¬(t ∈ tiles ∧ runHi tiles t < 0 + 1) := by
        rintro ⟨hmem, hhi⟩
        have h1 := (mem_iff_run tiles t).mp hmem
        omega
      constructor
      · rw [binsInv_fst, binsMid_fst, if_neg, if_neg]
        · exact hnotlo
        · rintro ⟨hmem, hlo⟩
          omega
      · rw [binsInv_snd, binsMid_snd, if_neg, if_neg]
        · exact hnothi
        · rintro ⟨hmem, hhi | ⟨hhiM, hkM⟩⟩
          · omega
          · omega
  · rw [if_neg hk0]
    have hkpos : 0 < k := by omega
    have hpt : tiles.getD (k - 1) 0 ∈ tiles := getD_mem_of_lt tiles (k - 1) (by omega)
    have hptlo : runLo tiles (tiles.getD (k - 1) 0) ≤ k - 1 :=
      runLo_le tiles hs (k - 1) (by omega)
    have hpthi : k - 1 < runHi tiles (tiles.getD (k - 1) 0) :=
      lt_runHi tiles hs (k - 1) (by omega)
    by_cases hpc : tiles.getD (k - 1) 0 ≠ tiles.getD k 0
    · rw [if_pos hpc]
      have hF11 : runHi tiles (tiles.getD (k - 1) 0) = k := by
        by_contra hne
        have hgt : k < runHi tiles (tiles.getD (k - 1) 0) := by omega
        exact hpc (getD_eq_of_run tiles hs k hk (tiles.getD (k - 1) 0)
          (by omega) hgt).symm
      have hF12 : runLo tiles (tiles.getD k 0) = k := by
        by_contra hne
        have hlt : runLo tiles (tiles.getD k 0) ≤ k - 1 := by omega
        exact hpc (getD_eq_of_run tiles hs (k - 1) (by omega) (tiles.getD k 0)
          hlt (by omega))
      by_cases ht : t = tiles.getD k 0
      · subst ht
        rw [setStart_eq, setEnd_ne _ _ _ _ (fun h => hpc h.symm)]
        constructor
        · show k = (binsMid tiles k (tiles.getD k 0)).1
          rw [binsMid_fst, if_pos ⟨hct, by omega⟩, hF12]
        · show (binsInv tiles k (tiles.getD k 0)).2 =
            (binsMid tiles k (tiles.getD k 0)).2
          rw [binsInv_snd, binsMid_snd, if_neg, if_neg]
          · rintro ⟨hmem, hhi⟩
            omega
          · rintro ⟨hmem, hhi | ⟨hhiM, hkM⟩⟩
            · omega
            · omega
      · rw [setStart_ne _ _ _ _ ht]
        by_cases htp : t = tiles.getD (k - 1) 0
        · subst htp
          rw [setEnd_eq]
          constructor
          · show (binsInv tiles k (tiles.getD (k - 1) 0)).1 =
              (binsMid tiles k (tiles.getD (k - 1) 0)).1
            rw [binsInv_fst, binsMid_fst,
              if_pos ⟨hpt, by omega⟩, if_pos ⟨hpt, by omega⟩]
          · show k = (binsMid tiles k (tiles.getD (k - 1) 0)).2
            rw [binsMid_snd, if_pos ⟨hpt, by omega⟩, hF11]
        · rw [setEnd_ne _ _ _ _ htp]
          constructor
          · rw [binsInv_fst, binsMid_fst]
            by_cases hc : t ∈ tiles ∧ runLo tiles t < k
            · rw [if_pos hc, if_pos ⟨hc.1, by omega⟩]
            · rw [if_neg hc, if_neg]
              rintro ⟨hmem, hlo⟩
              have hloe : runLo tiles t = k := by
                rcases Nat.lt_or_ge (runLo tiles t) k with h | h
                · exact absurd ⟨hmem, h⟩ hc
                · omega
              exact ht (hF4 t hmem hloe)
          · rw [binsInv_snd, binsMid_snd]
            by_cases hc : t ∈ tiles ∧ runHi tiles t < k
            · rw [if_pos ⟨hc.1, Or.inl hc.2⟩, if_pos ⟨hc.1, by omega⟩]
            · rw [if_neg, if_neg]
              · rintro ⟨hmem, hhi⟩
                have hhie : runHi tiles t = k := by
                  rcases Nat.lt_or_ge (runHi tiles t) k with h | h
                  · exact absurd ⟨hmem, h⟩ hc
                  · omega
                exact htp ((hF5 t hmem hhie).2).symm
              · rintro ⟨hmem, hhi | ⟨hhiM, hkM⟩⟩
                · exact hc ⟨hmem, hhi⟩
                · omega
    · rw [if_neg hpc]
      push_neg at hpc
      have hF13 : runLo tiles (tiles.getD k 0) ≤ k - 1 := by
        rw [← hpc]
        exact hptlo
      constructor
      · rw [binsInv_fst, binsMid_fst]
        by_cases hc : t ∈ tiles ∧ runLo tiles t < k
        · rw [if_pos hc, if_pos ⟨hc.1, by omega⟩]
        · rw [if_neg hc, if_neg]
          rintro ⟨hmem, hlo⟩
          have hloe : runLo tiles t = k := by
            rcases Nat.lt_or_ge (runLo tiles t) k with h | h
            · exact absurd ⟨hmem, h⟩ hc
            · omega
          have hteq := hF4 t hmem hloe
          rw [hteq] at hloe
          omega
      · rw [binsInv_snd, binsMid_snd]
        by_cases hc : t ∈ tiles ∧ runHi tiles t < k
        · rw [if_pos ⟨hc.1, Or.inl hc.2⟩, if_pos ⟨hc.1, by omega⟩]
        · rw [if_neg, if_neg]
          · rintro ⟨hmem, hhi⟩
            have hhie : runHi tiles t = k := by
              rcases Nat.lt_or_ge (runHi tiles t) k with h | h
              · exact absurd ⟨hmem, h⟩ hc
              · omega
            have hteq := (hF5 t hmem hhie).2
            rw [hpc] at hteq
            rw [← hteq] at hhie
            omega
          · rintro ⟨hmem, hhi | ⟨hhiM, hkM⟩⟩
            · exact hc ⟨hmem, hhi⟩
            · omega

theorem tileBinStep_inv (tiles : List Nat) (hs : tiles.Pairwise (· ≤ ·))
    (k : Nat) (hk : k < tiles.length) (t : Nat) :
    tileBinStep tiles.length tiles (binsInv tiles k) k t = binsInv tiles (k + 1) t := by
  have hct : tiles.getD k 0 ∈ tiles := getD_mem_of_lt tiles k hk
  have hctlo : runLo tiles (tiles.getD k 0) ≤ k := runLo_le tiles hs k hk
  have hcthi : k < runHi tiles (tiles.getD k 0) := lt_runHi tiles hs k hk
  have hF6 : ∀ u, u ∈ tiles → runHi tiles u = k + 1 → u = tiles.getD k 0 := by
    intro u hu he
    have hlo : runLo tiles u < k + 1 := by
      rw [← he]
      exact (mem_iff_run tiles u).mp hu
    exact (getD_eq_of_run tiles hs k hk u (by omega) (by omega)).symm
  rw [tileBinStep]
  by_cases hkM : k + 1 = tiles.length
  · rw [if_pos hkM]
    by_cases ht : t = tiles.getD k 0
    · subst ht
      rw [setEnd_eq, tileBinBoundary_inv tiles hs k hk, Prod.ext_iff]
      constructor
      · show (binsMid tiles k (tiles.getD k 0)).1 =
          (binsInv tiles (k + 1) (tiles.getD k 0)).1
        rw [binsMid_fst, binsInv_fst, if_pos ⟨hct, by omega⟩]
      · show (tiles.length : Nat) = (binsInv tiles (k + 1) (tiles.getD k 0)).2
        have hhiM : runHi tiles (tiles.getD k 0) = tiles.length := by
          have := runHi_le_length tiles (tiles.getD k 0)
          omega
        rw [binsInv_snd, if_pos ⟨hct, Or.inr ⟨hhiM, hkM⟩⟩, hhiM]
    · rw [setEnd_ne _ _ _ _ ht, tileBinBoundary_inv tiles hs k hk, Prod.ext_iff]
      constructor
      · rw [binsMid_fst, binsInv_fst]
      · rw [binsMid_snd, binsInv_snd]
        by_cases hc : t ∈ tiles ∧ runHi tiles t < k + 1
        · rw [if_pos hc, if_pos ⟨hc.1, Or.inl hc.2⟩]
        · rw [if_neg hc, if_neg]
          rintro ⟨hmem, hhi | ⟨hhiM, _⟩⟩
          · exact hc ⟨hmem, hhi⟩
          · exact ht (hF6 t hmem (by omega))
  · rw [if_neg hkM, tileBinBoundary_inv tiles hs k hk, Prod.ext_iff]
    constructor
    · rw [binsMid_fst, binsInv_fst]
    · rw [binsMid_snd, binsInv_snd]
      by_cases hc : t ∈ tiles ∧ runHi tiles t < k + 1
      · rw [if_pos hc, if_pos ⟨hc.1, Or.inl hc.2⟩]
      · rw [if_neg hc, if_neg]
        rintro ⟨hmem, hhi | ⟨hhiM, hkM2⟩⟩
        · exact hc ⟨hmem, hhi⟩
        · exact hkM hkM2

theorem get_tile_bin_edges_inv (tiles : List Nat) (hs : tiles.Pairwise (· ≤ ·))
    (t : Nat) :
    get_tile_bin_edges tiles t = binsInv tiles tiles.length t := by
  suffices h : ∀ k, k ≤ tiles.length →
      ∀ u, (List.range k).foldl (tileBinStep tiles.length tiles)
          (fun _ => (0, 0)) u = binsInv tiles k u by
    exact h tiles.length (le_refl _) t
  intro k
  induction k with
  | zero =>
    intro _ u
    rw [List.range_zero, List.foldl_nil, Prod.ext_iff]
    constructor
    · rw [binsInv_fst, if_neg]
      rintro ⟨_, hl⟩
      omega
    · rw [binsInv_snd, if_neg]
      rintro ⟨hm, hd | ⟨_, h0M⟩⟩
      · omega
      · have he : tiles = [] := List.length_eq_zero.mp h0M.symm
        rw [he] at hm
        simp at hm
  | succ p ih =>
    intro hk u
    rw [List.range_succ, List.foldl_append, List.foldl_cons, List.foldl_nil]
    have hfun : (List.range p).foldl (tileBinStep tiles.length tiles)
        (fun _ => (0, 0)) = binsInv tiles p := funext (ih (by omega))
    rw [hfun]
    exact tileBinStep_inv tiles hs p (by omega) u

theorem get_tile_bin_edges_mem (tiles : List Nat) (hs : tiles.Pairwise (· ≤ ·))
    (u : Nat) (hu : u ∈ tiles) :
    get_tile_bin_edges tiles u = (runLo tiles u, runHi tiles u) := by
  rw [get_tile_bin_edges_inv tiles hs u, Prod.ext_iff]
  have hrun := (mem_iff_run tiles u).mp hu
  have hlen := runHi_le_length tiles u
  constructor
  · rw [binsInv_fst, if_pos ⟨hu, by omega⟩]
  · rw [binsInv_snd, if_pos]
    refine ⟨hu, ?_⟩
    rcases Nat.lt_or_ge (runHi tiles u) tiles.length with h | h
    · exact Or.inl h
    · exact Or.inr ⟨by omega, rfl⟩

theorem get_tile_bin_edges_empty (tiles : List Nat) (hs : tiles.Pairwise (· ≤ ·))
    (u : Nat) (hu : u ∉ tiles) :
    get_tile_bin_edges tiles u = (0, 0) := by
  rw [get_tile_bin_edges_inv tiles hs u, Prod.ext_iff]
  constructor
  · rw [binsInv_fst, if_neg]
    rintro ⟨hm, _⟩
    exact hu hm
  · rw [binsInv_snd, if_neg]
    rintro ⟨hm, _⟩
    exact hu hm

/-- C5: on the sorted tile-id sequence of the intersection records, the
extracted tile bins partition the index range of the sorted array: every
bin range lies within it, the ranges of distinct non-empty tiles do not
overlap, every record index lies in the bin of some tile of the grid, and
every tile with no intersections keeps the empty zero range. -/
theorem tile_bins_partition (tiles : List Nat) (numTiles : Nat)
    (hs : tiles.Pairwise (· ≤ ·)) (hb : ∀ x ∈ tiles, x < numTiles) :
    (∀ u, u < numTiles →
      (get_tile_bin_edges tiles u).1 ≤ (get_tile_bin_edges tiles u).2 ∧
      (get_tile_bin_edges tiles u).2 ≤ tiles.length) ∧
    (∀ u v, u < numTiles → v < numTiles → u ≠ v →
      (get_tile_bin_edges tiles u).1 < (get_tile_bin_edges tiles u).2 →
      (get_tile_bin_edges tiles v).1 < (get_tile_bin_edges tiles v).2 →
      ((get_tile_bin_edges tiles u).2 ≤ (get_tile_bin_edges tiles v).1 ∨
        (get_tile_bin_edges tiles v).2 ≤ (get_tile_bin_edges tiles u).1)) ∧
    (∀ j, j < tiles.length → ∃ u, u < numTiles ∧
      (get_tile_bin_edges tiles u).1 ≤ j ∧ j < (get_tile_bin_edges tiles u).2) ∧
    (∀ u, u ∉ tiles → get_tile_bin_edges tiles u = (0, 0)) := by
  refine ⟨?_, ?_, ?_, fun u hu => get_tile_bin_edges_empty tiles hs u hu⟩
  · intro u _
    by_cases hu : u ∈ tiles
    · rw [get_tile_bin_edges_mem tiles hs u hu]
      exact ⟨runLo_le_runHi tiles u, runHi_le_length tiles u⟩
    · rw [get_tile_bin_edges_empty tiles hs u hu]
      simp
  · intro u v _ _ huv hne1 hne2
    have hu : u ∈ tiles := by
      by_contra hcon
      rw [get_tile_bin_edges_empty tiles hs u hcon] at hne1
      simp at hne1
    have hv : v ∈ tiles := by
      by_contra hcon
      rw [get_tile_bin_edges_empty tiles hs v hcon] at hne2
      simp at hne2
    rw [get_tile_bin_edges_mem tiles hs u hu, get_tile_bin_edges_mem tiles hs v hv]
    rcases Nat.lt_or_ge u v with h | h
    · exact Or.inl (runHi_le_runLo_of_lt tiles u v h)
    · have hlt : v < u := by omega
      exact Or.inr (runHi_le_runLo_of_lt tiles v u hlt)
  · intro j hj
    refine ⟨tiles.getD j 0, hb _ (getD_mem_of_lt tiles j hj), ?_⟩
    rw [get_tile_bin_edges_mem tiles hs _ (getD_mem_of_lt tiles j hj)]
    exact ⟨runLo_le tiles hs j hj, lt_runHi tiles hs j hj⟩

/-- Witness for tile_bins_partition on a concrete sorted record set with
an empty middle tile. -/
theorem tile_bins_partition_witness :
    (∀ u, u < 3 →
      (get_tile_bin_edges [0, 0, 2] u).1 ≤ (get_tile_bin_edges [0, 0, 2] u).2 ∧
      (get_tile_bin_edges [0, 0, 2] u).2 ≤ List.length [0, 0, 2]) ∧
    (∀ u v, u < 3 → v < 3 → u ≠ v →
      (get_tile_bin_edges [0, 0, 2] u).1 < (get_tile_bin_edges [0, 0, 2] u).2 →
      (get_tile_bin_edges [0, 0, 2] v).1 < (get_tile_bin_edges [0, 0, 2] v).2 →
      ((get_tile_bin_edges [0, 0, 2] u).2 ≤ (get_tile_bin_edges [0, 0, 2] v).1 ∨
        (get_tile_bin_edges [0, 0, 2] v).2 ≤ (get_tile_bin_edges [0, 0, 2] u).1)) ∧
    (∀ j, j < List.length [0, 0, 2] → ∃ u, u < 3 ∧
      (get_tile_bin_edges [0, 0, 2] u).1 ≤ j ∧ j < (get_tile_bin_edges [0, 0, 2] u).2) ∧
    (∀ u, u ∉ [0, 0, 2] → get_tile_bin_edges [0, 0, 2] u = (0, 0)) :=
  tile_bins_partition [0, 0, 2] 3 (by decide) (by decide)
